import Mathlib

/-!
Verification of the sliceutils library (Go): a shallow embedding of its
slice operations and work-division generator, with proofs of the spec's
claims about them.

A Go slice value is modelled as `Option (List α)`: `none` is the nil
slice, `some l` a non-nil slice whose elements are `l`.  Go callbacks
that close over mutable state (the `uniques` map in Deduplicate) are
modelled by threading the closure state explicitly.  Code that panics in
Go (integer division by zero in `newSliceDivGen`) is modelled with
`Option`, `none` standing for the panic.
-/

namespace SliceUtils

/-- A Go slice: `none` models the nil slice, `some l` a non-nil slice. -/
abbrev GoSlice (α : Type _) := Option (List α)

/-- The elements of a slice; a nil slice has none. -/
def elems (s : GoSlice α) : List α := s.getD []

/-- `zeroValue` from common.go: the zero value of a type. -/
def zeroValue (α : Type _) [Inhabited α] : α := default

/-- `makeSet` from common.go builds a membership set from a slice's
elements; modelled as the element list, queried by list membership. -/
def makeSet (s : GoSlice α) : List α := elems s

/-- The loop of Go's `Filter` when the callback closes over mutable
state of type `σ`: the callback consumes the state and returns the keep
decision plus the updated state. -/
def filterLoop (f : σ → α → Bool × σ) : σ → List α → List α
  | _, [] => []
  | st, x :: xs =>
    if (f st x).1 then x :: filterLoop f (f st x).2 xs
    else filterLoop f (f st x).2 xs

/-- Go's `Filter` with an arbitrary (possibly stateful) callback:
nil in, nil out; otherwise run the filter loop. -/
def FilterSt (f : σ → α → Bool × σ) (st : σ) (s : GoSlice α) : GoSlice α :=
  s.map (filterLoop f st)

/-- Go's `Filter` with a pure callback. -/
def Filter (s : GoSlice α) (p : α → Bool) : GoSlice α :=
  FilterSt (fun u x => (p x, u)) () s

/-- The compaction loop of Go's `FilterInPlace`: scan the array `a` with
read index `i`, writing kept elements at write index `n`.  Reads go to
the current array, exactly as in Go, where the scanned slice header
shares the written-to backing array. -/
def fipLoop (f : σ → α → Bool × σ) (a : List α) (i n : Nat) (st : σ) :
    List α × Nat :=
  if h : i < a.length then
    if (f st (a.get ⟨i, h⟩)).1 then
      fipLoop f (a.set n (a.get ⟨i, h⟩)) (i + 1) (n + 1) (f st (a.get ⟨i, h⟩)).2
    else
      fipLoop f a (i + 1) n (f st (a.get ⟨i, h⟩)).2
  else (a, n)
termination_by a.length - i
decreasing_by
  · simp only [List.length_set]; omega
  · omega

/-- Go's `FilterInPlace` with a (possibly stateful) callback: run the
compaction loop and truncate the slice to the number of kept elements.
A nil slice stays nil (the loop body never runs and re-slicing nil to
length zero yields nil in Go). -/
def FilterInPlaceSt (f : σ → α → Bool × σ) (st : σ) (s : GoSlice α) :
    GoSlice α :=
  s.map (fun l => ((fipLoop f l 0 0 st).1).take (fipLoop f l 0 0 st).2)

/-- The state step of the closure used by `Deduplicate` and
`DeduplicateInPlace`: keep a value iff it is not in the `uniques` set
yet, inserting it when first seen. -/
def dedupStep [DecidableEq α] (seen : List α) (val : α) : Bool × List α :=
  if val ∈ seen then (false, seen) else (true, val :: seen)

/-- Go's `Deduplicate`: `Filter` with the stateful first-occurrence
closure, starting from an empty `uniques` set. -/
def Deduplicate [DecidableEq α] (s : GoSlice α) : GoSlice α :=
  FilterSt dedupStep [] s

/-- Go's `DeduplicateInPlace`: `FilterInPlace` with the same closure. -/
def DeduplicateInPlace [DecidableEq α] (s : GoSlice α) : GoSlice α :=
  FilterInPlaceSt dedupStep [] s

/-- Go's `Difference`: filter the left slice, keeping elements not in
the right operand's derived set. -/
def Difference [DecidableEq α] (lhs rhs : GoSlice α) : GoSlice α :=
  Filter lhs (fun val => decide (val ∉ makeSet rhs))

/-- Go's `Intersection`: nil iff both operands nil, else the elements of
the left slice that are in the right operand's derived set. -/
def Intersection [DecidableEq α] (lhs rhs : GoSlice α) : GoSlice α :=
  if lhs = none ∧ rhs = none then none
  else some ((elems lhs).filter (fun val => decide (val ∈ makeSet rhs)))

/-- Go's built-in `append(s, xs...)` at the slice level: appending no
elements returns the left slice unchanged (nil stays nil); appending at
least one element always allocates a non-nil slice. -/
def appendGo (s : GoSlice α) (xs : List α) : GoSlice α :=
  match s, xs with
  | none, [] => none
  | none, xs => some xs
  | some l, xs => some (l ++ xs)

/-- Go's `Union`: append the right operand's elements to the left slice,
then deduplicate in place. -/
def Union [DecidableEq α] (lhs rhs : GoSlice α) : GoSlice α :=
  DeduplicateInPlace (appendGo lhs (elems rhs))

/-- Go's `SymmetricDifference`: append the two one-sided differences. -/
def SymmetricDifference [DecidableEq α] (lhs rhs : GoSlice α) : GoSlice α :=
  appendGo (Difference lhs rhs) (elems (Difference rhs lhs))

/-- Go's `Map`: nil in, nil out; otherwise apply the mapping to every
element in order. -/
def Map (s : GoSlice α) (f : α → β) : GoSlice β :=
  s.map (List.map f)

/-- Go's `Reverse`: nil in, nil out; otherwise a freshly allocated slice
whose element at slot `len-1-k` is the input's element at slot `k`. -/
def Reverse (s : GoSlice α) : GoSlice α :=
  s.map List.reverse

/-- Go's `Flatten`: nil in, nil out; otherwise concatenate the element
slices (nil inner slices contribute nothing) in order. -/
def Flatten (s : GoSlice (GoSlice α)) : GoSlice α :=
  s.map (fun ls => (ls.map elems).flatten)

/-- Go's variadic `Join`: the variadic parameter is itself a slice,
which is nil exactly when the caller passed zero arguments; in that case
nil is returned, otherwise a (non-nil) concatenation of the arguments'
elements in order. -/
def Join (args : GoSlice (GoSlice α)) : GoSlice α :=
  match args with
  | none => none
  | some ls => some ((ls.map elems).flatten)

/-- The accumulator loop of Go's `MaxBy`: starting from `slice[0]`, take
the candidate when the current maximum compares less than it. -/
def maxLoop (lessFn : α → α → Bool) (cur : α) : List α → α
  | [] => cur
  | v :: vs => maxLoop lessFn (if lessFn cur v then v else cur) vs

/-- Go's `MaxBy`: zero value and false on a slice of length zero (nil or
empty); otherwise fold the comparison over the tail. -/
def MaxBy [Inhabited α] (s : GoSlice α) (lessFn : α → α → Bool) :
    α × Bool :=
  match elems s with
  | [] => (zeroValue α, false)
  | x :: xs => (maxLoop lessFn x xs, true)

/-- The accumulator loop of Go's `MinBy`: starting from `slice[0]`, take
the candidate when it compares less than the current minimum. -/
def minLoop (lessFn : α → α → Bool) (cur : α) : List α → α
  | [] => cur
  | v :: vs => minLoop lessFn (if lessFn v cur then v else cur) vs

/-- Go's `MinBy`: zero value and false on a slice of length zero (nil or
empty); otherwise fold the comparison over the tail. -/
def MinBy [Inhabited α] (s : GoSlice α) (lessFn : α → α → Bool) :
    α × Bool :=
  match elems s with
  | [] => (zeroValue α, false)
  | x :: xs => (minLoop lessFn x xs, true)

/-- Stated from the claim's words, for comparison with `Deduplicate`:
keep the first occurrence of each distinct element, in the original
relative order, dropping every later duplicate. -/
def firstOccurrences [DecidableEq α] : List α → List α
  | [] => []
  | x :: xs => x :: firstOccurrences (xs.filter (fun y => y ≠ x))
termination_by l => l.length
decreasing_by
  exact Nat.lt_succ_of_le (List.length_filter_le _ _)

/-- `sliceDivGen` from common.go. -/
structure SliceDivGen where
  minDivLen : Nat
  firstPartDivs : Nat
deriving DecidableEq, Repr

/-- `newSliceDivGen` from common.go.  Go's `length / divs` panics when
`divs` is zero; the panic is modelled as `none`. -/
def newSliceDivGen (length divs : Nat) : Option SliceDivGen :=
  if divs = 0 then none
  else some ⟨length / divs, length % divs⟩

/-- `sliceDivGen.offsetAndLength` from common.go. -/
def SliceDivGen.offsetAndLength (sdg : SliceDivGen) (divIdx : Nat) :
    Nat × Nat :=
  if divIdx < sdg.firstPartDivs then
    ((sdg.minDivLen + 1) * divIdx, sdg.minDivLen + 1)
  else
    (divIdx * sdg.minDivLen + sdg.firstPartDivs, sdg.minDivLen)

/-- Go's built-in `copy(dst, src)` where `dst` is the buffer re-sliced
from `start`: overwrite the buffer from `start` onward with the elements
of `seg`, stopping at whichever of the two runs out; the buffer's length
never changes. -/
def copySeg : List β → Nat → List β → List β
  | [], _, _ => []
  | buf, _, [] => buf
  | _ :: buf, 0, s :: seg => s :: copySeg buf 0 seg
  | b :: buf, n + 1, seg => b :: copySeg buf n seg

/-- Go's `ParMap`, with the worker count `divs` (`runtime.NumCPU()` in
Go, always at least 1) made an explicit parameter.  A nil slice short-
circuits to nil.  Otherwise the division generator is built (the outer
`Option` models its panic on a zero division count), the result buffer
is pre-sized to the input's length (`make` zero-fills, modelled by the
zero value), and one worker per division maps its input sub-slice with
the sequential `Map` and copies the result into its output region.
Workers write pairwise disjoint regions and are joined before the buffer
is returned, so the concurrent writes are modelled by folding them in
division order. -/
def ParMap [Inhabited β] (divs : Nat) (s : GoSlice α) (f : α → β) :
    Option (GoSlice β) :=
  match s with
  | none => some none
  | some l =>
    (newSliceDivGen l.length divs).map (fun gen =>
      some ((List.range divs).foldl (fun buf divIdx =>
        copySeg buf (gen.offsetAndLength divIdx).1
          (elems (Map (some ((l.drop (gen.offsetAndLength divIdx).1).take
            (gen.offsetAndLength divIdx).2)) f)))
        (List.replicate l.length (zeroValue β))))

/-- Go's parallel-assignment swap `slice[i], slice[j] = slice[j],
slice[i]` on a list; indices out of range leave the list unchanged
(the embedded loops only ever swap in-bounds indices). -/
def swapL (l : List α) (i j : Nat) : List α :=
  match l.get? i, l.get? j with
  | some x, some y => (l.set i y).set j x
  | _, _ => l

/-- The forward scan of Go's `PartitionInPlace`:
`for fwd < bck && firstPart(slice[fwd]) { fwd++ }`.  Indices are Go
ints, modelled as `Int`; element reads use the index's `toNat` with a
default, and every read performed by the Go loop is in bounds.  The
result carries the proof that the index never moves backwards, which the
outer loop's termination needs. -/
def advance (p : α → Bool) (d : α) (l : List α) (bck : Int) :
    (fwd : Int) → {r : Int // fwd ≤ r}
  | fwd =>
    if h : fwd < bck ∧ p (l.getD fwd.toNat d) then
      let r := advance p d l bck (fwd + 1)
      ⟨r.1, by have := r.2; omega⟩
    else ⟨fwd, by omega⟩
termination_by fwd => (bck - fwd).toNat
decreasing_by
  omega

/-- The backward scan of Go's `PartitionInPlace`:
`for fwd < bck && !firstPart(slice[bck]) { bck-- }`.  The result carries
the proof that the index never moves forwards. -/
def retreat (p : α → Bool) (d : α) (l : List α) (fwd : Int) :
    (bck : Int) → {r : Int // r ≤ bck}
  | bck =>
    if h : fwd < bck ∧ ¬ p (l.getD bck.toNat d) then
      let r := retreat p d l fwd (bck - 1)
      ⟨r.1, by have := r.2; omega⟩
    else ⟨bck, by omega⟩
termination_by bck => (bck - fwd).toNat
decreasing_by
  omega

/-- The outer loop of Go's `PartitionInPlace`: bump the forward index
and scan forward, bump the backward index and scan backward, return the
forward index once the two meet, otherwise swap the out-of-place pair
and repeat. -/
def hoareLoop (p : α → Bool) (d : α) (l : List α) (fwd bck : Int) :
    List α × Int :=
  let f1 := advance p d l bck (fwd + 1)
  let b1 := retreat p d l f1.1 (bck - 1)
  if f1.1 ≥ b1.1 then (l, f1.1)
  else hoareLoop p d (swapL l f1.1.toNat b1.1.toNat) f1.1 b1.1
termination_by (bck - fwd).toNat
decreasing_by
  have h1 := f1.2
  have h2 := b1.2
  unfold_let f1 b1 at *
  omega

/-- Go's `PartitionInPlace`: the two-pointer Hoare-style partition,
started at `fwd = -1`, `bck = len(slice)`; returns the updated slice
(the Go function mutates it) with the boundary index. -/
def PartitionInPlace (d : α) (l : List α) (firstPart : α → Bool) :
    List α × Int :=
  hoareLoop firstPart d l (-1) l.length

/-- Go's `Partition`: two fresh slices, the kept-order elements for
which the callback is true, then those for which it is false. -/
def Partition (s : GoSlice α) (firstPart : α → Bool) :
    GoSlice α × GoSlice α :=
  match s with
  | none => (none, none)
  | some l =>
    (some (l.filter firstPart), some (l.filter (fun v => ! firstPart v)))

end SliceUtils

namespace SliceUtils

/-- C5: for every slice, nil and empty included, reversing twice gives
back the original slice: Reverse is an involution. -/
theorem reverse_involution (s : GoSlice α) : Reverse (Reverse s) = s := by
  cases s with
  | none => rfl
  | some l => simp [Reverse]

/-- C9: constructing a work-division generator with zero divisions is a
fatal contract violation: for every length, `newSliceDivGen length 0`
panics (modelled as `none`) instead of returning a generator. -/
theorem newSliceDivGen_zero_panics (length : Nat) :
    newSliceDivGen length 0 = none := rfl

theorem appendGo_eq_none (s : GoSlice α) (xs : List α) :
    appendGo s xs = none ↔ s = none ∧ xs = [] := by
  cases s <;> cases xs <;> simp [appendGo]

theorem difference_eq_none [DecidableEq α] (lhs rhs : GoSlice α) :
    Difference lhs rhs = none ↔ lhs = none := by
  cases lhs <;> simp [Difference, Filter, FilterSt]

theorem elems_difference_nil_rhs [DecidableEq α] (rhs : GoSlice α) :
    elems (Difference rhs none) = elems rhs := by
  cases rhs with
  | none => rfl
  | some l =>
    simp [Difference, Filter, FilterSt, elems, makeSet]
    induction l with
    | nil => rfl
    | cons x xs ih => simp [filterLoop, ih]

/-- C8: Flatten of a nil slice-of-slices is nil; Join with zero
arguments (a nil variadic parameter) is nil; Join with one or more
arguments is non-nil, and empty when every argument is empty or nil;
both Flatten and Join concatenate their inputs' elements in argument
order (concatenation is a homomorphism on the argument list, and Flatten
agrees with Join on any actual argument list). -/
theorem flatten_join_spec {α : Type} (ls la lb : List (GoSlice α)) :
    Flatten (none : GoSlice (GoSlice α)) = none ∧
    Join (none : GoSlice (GoSlice α)) = none ∧
    Join (some ls) ≠ none ∧
    ((∀ s ∈ ls, elems s = []) → Join (some ls) = some []) ∧
    elems (Join (some (la ++ lb))) =
      elems (Join (some la)) ++ elems (Join (some lb)) ∧
    Flatten (some ls) = Join (some ls) := by
  refine ⟨rfl, rfl, by simp [Join], ?_, ?_, rfl⟩
  · intro h
    simp only [Join, Option.some.injEq]
    rw [List.flatten_eq_nil_iff]
    intro l hl
    obtain ⟨s, hs, rfl⟩ := List.mem_map.mp hl
    exact h s hs
  · simp [Join, elems]

/-- Witness for C8 at a concrete argument list. -/
theorem flatten_join_spec_witness :
    Join (some [none, some ([] : List Nat)]) = some [] :=
  (flatten_join_spec [none, some []] [] []).2.2.2.1 (by decide)

/-- C3 fails as stated: Difference with a nil left operand and a non-nil
right operand returns nil, although one operand is non-nil. -/
theorem setops_nil_claim_cex :
    Difference (none : GoSlice Nat) (some [1]) = none ∧
    (some [1] : GoSlice Nat) ≠ none := ⟨rfl, by simp⟩

/-- C3 amended: Intersection is nil exactly when both operands are nil;
Difference is nil exactly when the left operand is nil (regardless of
the right operand); Union and SymmetricDifference are nil exactly when
the left operand is nil and the right operand has no elements.  In
particular all four return a non-nil slice whenever the left operand is
non-nil, but a nil left operand with a non-nil right operand can still
yield nil. -/
theorem setops_nilness {α : Type} [DecidableEq α] (lhs rhs : GoSlice α) :
    (Intersection lhs rhs = none ↔ lhs = none ∧ rhs = none) ∧
    (Difference lhs rhs = none ↔ lhs = none) ∧
    (Union lhs rhs = none ↔ lhs = none ∧ elems rhs = []) ∧
    (SymmetricDifference lhs rhs = none ↔ lhs = none ∧ elems rhs = []) := by
  refine ⟨?_, difference_eq_none lhs rhs, ?_, ?_⟩
  · constructor
    · intro h
      by_contra hc
      rw [not_and_or] at hc
      have : ¬(lhs = none ∧ rhs = none) := by tauto
      simp [Intersection, this] at h
    · rintro ⟨rfl, rfl⟩
      rfl
  · have : Union lhs rhs = none ↔ appendGo lhs (elems rhs) = none := by
      unfold Union DeduplicateInPlace FilterInPlaceSt
      cases appendGo lhs (elems rhs) <;> simp
    rw [this, appendGo_eq_none]
  · unfold SymmetricDifference
    rw [appendGo_eq_none, difference_eq_none]
    constructor
    · rintro ⟨h1, h2⟩
      subst h1
      rw [elems_difference_nil_rhs] at h2
      exact ⟨rfl, h2⟩
    · rintro ⟨rfl, h2⟩
      exact ⟨rfl, by rwa [elems_difference_nil_rhs]⟩

theorem filterLoop_dedupStep [DecidableEq α] (l : List α) :
    ∀ seen : List α, filterLoop dedupStep seen l =
      firstOccurrences (l.filter (fun y => decide (y ∉ seen))) := by
  induction l with
  | nil => intro seen; simp [filterLoop, firstOccurrences]
  | cons x xs ih =>
    intro seen
    by_cases hx : x ∈ seen
    · have hstep : dedupStep seen x = (false, seen) := by simp [dedupStep, hx]
      rw [filterLoop, hstep, if_neg (by simp)]
      rw [List.filter_cons, if_neg (by simp [hx])]
      exact ih seen
    · have hfilter : xs.filter (fun y => decide (y ∉ x :: seen)) =
          (xs.filter (fun y => decide (y ∉ seen))).filter (fun y => y ≠ x) := by
        rw [List.filter_filter]
        apply List.filter_congr
        intro a _
        by_cases h1 : a = x <;> by_cases h2 : a ∈ seen <;> simp [h1, h2]
      have hstep : dedupStep seen x = (true, x :: seen) := by
        simp [dedupStep, hx]
      rw [filterLoop, hstep, if_pos rfl]
      rw [List.filter_cons, if_pos (by simp [hx]), firstOccurrences]
      congr 1
      rw [← hfilter]
      exact ih (x :: seen)

theorem mem_firstOccurrences [DecidableEq α] (l : List α) (x : α)
    (h : x ∈ firstOccurrences l) : x ∈ l := by
  induction l using firstOccurrences.induct with
  | case1 => simp [firstOccurrences] at h
  | case2 y ys ih =>
    rw [firstOccurrences] at h
    rcases List.mem_cons.mp h with h1 | h1
    · simp [h1]
    · exact List.mem_cons_of_mem _ (List.mem_of_mem_filter (ih h1))

theorem firstOccurrences_idem [DecidableEq α] (l : List α) :
    firstOccurrences (firstOccurrences l) = firstOccurrences l := by
  induction l using firstOccurrences.induct with
  | case1 => simp [firstOccurrences]
  | case2 x xs ih =>
    rw [firstOccurrences, firstOccurrences]
    have hself : (firstOccurrences (xs.filter (fun y => y ≠ x))).filter
        (fun y => y ≠ x) = firstOccurrences (xs.filter (fun y => y ≠ x)) := by
      apply List.filter_eq_self.mpr
      intro a ha
      have := List.of_mem_filter (mem_firstOccurrences _ _ ha)
      exact this
    rw [hself, ih]

theorem deduplicate_some [DecidableEq α] (l : List α) :
    Deduplicate (some l) = some (firstOccurrences l) := by
  have h := filterLoop_dedupStep l []
  have h2 : l.filter (fun y => decide (y ∉ ([] : List α))) = l := by simp
  rw [h2] at h
  show some (filterLoop dedupStep [] l) = some (firstOccurrences l)
  rw [h]

/-- C6: Deduplicate is idempotent on every slice, nil included. -/
theorem deduplicate_idempotent {α : Type} [DecidableEq α] (s : GoSlice α) :
    Deduplicate (Deduplicate s) = Deduplicate s := by
  cases s with
  | none => rfl
  | some l =>
    rw [deduplicate_some, deduplicate_some, firstOccurrences_idem]

theorem getElem_mid (A : List α) (x : α) (r : List α) (h) :
    (A ++ x :: r).get ⟨A.length, h⟩ = x := by
  induction A with
  | nil => rfl
  | cons a A ih => exact ih _

theorem set_mid (A : List α) (x y : α) (r : List α) :
    (A ++ x :: r).set A.length y = A ++ y :: r := by
  induction A with
  | nil => rfl
  | cons a A ih => simp [List.set, ih]

theorem fipLoop_take (f : σ → α → Bool × σ) :
    ∀ (rest kept junk : List α) (st : σ),
      ((fipLoop f (kept ++ junk ++ rest) (kept.length + junk.length)
          kept.length st).1).take
        (fipLoop f (kept ++ junk ++ rest) (kept.length + junk.length)
          kept.length st).2 =
      kept ++ filterLoop f st rest := by
  intro rest
  induction rest with
  | nil =>
    intro kept junk st
    have hnot : ¬ (kept.length + junk.length <
        (kept ++ junk ++ ([] : List α)).length) := by simp
    rw [fipLoop, dif_neg hnot]
    simp only [filterLoop, List.append_nil]
    exact List.take_left' rfl
  | cons x rest ih =>
    intro kept junk st
    have hlen : kept.length + junk.length <
        (kept ++ junk ++ (x :: rest)).length := by
      simp
    have hget : (kept ++ junk ++ (x :: rest)).get
        ⟨kept.length + junk.length, hlen⟩ = x := by
      have h1 : (kept ++ junk ++ (x :: rest))[kept.length + junk.length]? =
          some x := by
        rw [List.getElem?_append_right (by simp)]
        simp
      have h2 : (kept ++ junk ++ (x :: rest))[kept.length + junk.length]? =
          some ((kept ++ junk ++ (x :: rest)).get
            ⟨kept.length + junk.length, hlen⟩) := by
        simp [List.getElem?_eq_getElem hlen]
      exact Option.some.inj (h2.symm.trans h1)
    rw [fipLoop, dif_pos hlen, hget]
    rcases hf : f st x with ⟨keep, st1⟩
    cases keep with
    | true =>
      rw [if_pos rfl]
      cases junk with
      | nil =>
        have hset : ((kept ++ [] ++ (x :: rest)).set kept.length x) =
            (kept ++ [x]) ++ [] ++ rest := by
          simp only [List.append_nil]
          rw [set_mid]
          simp
        rw [hset]
        have hi : kept.length + List.length ([] : List α) + 1 =
            (kept ++ [x]).length + List.length ([] : List α) := by
          simp only [List.length_append, List.length_cons, List.length_nil]
        have hn : kept.length + 1 = (kept ++ [x]).length := by simp
        rw [hi, hn, ih (kept ++ [x]) []]
        simp [filterLoop, hf]
      | cons j js =>
        have hset : ((kept ++ (j :: js) ++ (x :: rest)).set kept.length x) =
            (kept ++ [x]) ++ (js ++ [x]) ++ rest := by
          have hj : kept ++ (j :: js) ++ (x :: rest) =
              kept ++ j :: (js ++ x :: rest) := by simp
          rw [hj, set_mid]
          simp
        rw [hset]
        have hi : kept.length + (j :: js).length + 1 =
            (kept ++ [x]).length + (js ++ [x]).length := by
          simp only [List.length_append, List.length_cons, List.length_nil]
          omega
        have hn : kept.length + 1 = (kept ++ [x]).length := by simp
        rw [hi, hn, ih (kept ++ [x]) (js ++ [x])]
        simp [filterLoop, hf]
    | false =>
      rw [if_neg (by simp)]
      have hre : kept ++ junk ++ (x :: rest) =
          kept ++ (junk ++ [x]) ++ rest := by simp
      have hi : kept.length + junk.length + 1 =
          kept.length + (junk ++ [x]).length := by
        simp only [List.length_append, List.length_cons, List.length_nil]
        omega
      rw [hre, hi, ih kept (junk ++ [x])]
      simp [filterLoop, hf]

theorem filterInPlaceSt_eq_filterSt (f : σ → α → Bool × σ) (st : σ)
    (s : GoSlice α) : FilterInPlaceSt f st s = FilterSt f st s := by
  cases s with
  | none => rfl
  | some l =>
    show some (((fipLoop f l 0 0 st).1).take (fipLoop f l 0 0 st).2) =
      some (filterLoop f st l)
    have h := fipLoop_take f l [] [] st
    simp only [List.nil_append, List.length_nil, Nat.add_zero] at h
    exact congrArg some h

/-- C10: Deduplicate keeps exactly the first occurrence of each distinct
element, in the original relative order, and DeduplicateInPlace leaves
the (truncated) slice equal to Deduplicate of its original contents. -/
theorem deduplicate_spec {α : Type} [DecidableEq α] (s : GoSlice α)
    (l : List α) :
    DeduplicateInPlace s = Deduplicate s ∧
    Deduplicate (some l) = some (firstOccurrences l) :=
  ⟨filterInPlaceSt_eq_filterSt dedupStep [] s, deduplicate_some l⟩

theorem offsetAndLength_zero (g : SliceDivGen) :
    (g.offsetAndLength 0).1 = 0 := by
  unfold SliceDivGen.offsetAndLength
  split
  · simp
  · simp
    omega

theorem offsetAndLength_cumul (g : SliceDivGen) (i : Nat) :
    (g.offsetAndLength (i + 1)).1 =
      (g.offsetAndLength i).1 + (g.offsetAndLength i).2 := by
  unfold SliceDivGen.offsetAndLength
  by_cases h1 : i + 1 < g.firstPartDivs
  · have h2 : i < g.firstPartDivs := by omega
    simp only [if_pos h1, if_pos h2]
    ring
  · by_cases h2 : i < g.firstPartDivs
    · have hr : g.firstPartDivs = i + 1 := by omega
      simp only [if_neg h1, if_pos h2]
      rw [hr]
      ring
    · simp only [if_neg h1, if_neg h2]
      ring

theorem offsetAndLength_mono (g : SliceDivGen) :
    ∀ b a, a ≤ b → (g.offsetAndLength a).1 ≤ (g.offsetAndLength b).1 := by
  intro b
  induction b with
  | zero =>
    intro a ha
    have h0 : a = 0 := by omega
    simp [h0]
  | succ b ih =>
    intro a ha
    by_cases h : a = b + 1
    · simp [h]
    · calc (g.offsetAndLength a).1 ≤ (g.offsetAndLength b).1 :=
            ih a (by omega)
        _ ≤ (g.offsetAndLength (b + 1)).1 := by
            rw [offsetAndLength_cumul]; omega

theorem offsetAndLength_sum (g : SliceDivGen) (k : Nat) :
    ((List.range k).map (fun i => (g.offsetAndLength i).2)).sum =
      (g.offsetAndLength k).1 := by
  induction k with
  | zero => simp [offsetAndLength_zero]
  | succ k ih =>
    rw [List.range_succ, List.map_append, List.sum_append,
      offsetAndLength_cumul]
    simp [ih]

/-- C1: for every length N and division count D at least 1, the
generator gives each division index the size floor(N/D), except the
first N mod D divisions which get one more; division 0 starts at offset
0 and each division starts where the previous one ends, so ranges are
contiguous, pairwise disjoint, and their sizes sum to N; in particular
length 10 with 3 divisions yields (0,4), (4,3), (7,3). -/
theorem sliceDivGen_spec (N D : Nat) (hD : 1 ≤ D) :
    (∃ gen : SliceDivGen, newSliceDivGen N D = some gen ∧
      (∀ i, i < D → (gen.offsetAndLength i).2 =
        if i < N % D then N / D + 1 else N / D) ∧
      (gen.offsetAndLength 0).1 = 0 ∧
      (∀ i, (gen.offsetAndLength (i + 1)).1 =
        (gen.offsetAndLength i).1 + (gen.offsetAndLength i).2) ∧
      ((List.range D).map (fun i => (gen.offsetAndLength i).2)).sum = N ∧
      (∀ i j, i < j → j < D →
        (gen.offsetAndLength i).1 + (gen.offsetAndLength i).2 ≤
          (gen.offsetAndLength j).1)) ∧
    (newSliceDivGen 10 3).map (fun g =>
      (g.offsetAndLength 0, g.offsetAndLength 1, g.offsetAndLength 2)) =
      some ((0, 4), (4, 3), (7, 3)) := by
  constructor
  · have hD0 : D ≠ 0 := by omega
    refine ⟨⟨N / D, N % D⟩, by simp [newSliceDivGen, hD0], ?_, ?_, ?_, ?_, ?_⟩
    · intro i _
      simp only [SliceDivGen.offsetAndLength]
      split
      · rename_i h
        simp [h]
      · rename_i h
        simp [h]
    · exact offsetAndLength_zero _
    · exact offsetAndLength_cumul _
    · rw [offsetAndLength_sum]
      have hmod : N % D < D := Nat.mod_lt _ (by omega)
      simp only [SliceDivGen.offsetAndLength]
      rw [if_neg (by omega)]
      exact Nat.div_add_mod N D
    · intro i j hij _
      rw [← offsetAndLength_cumul]
      exact offsetAndLength_mono _ j (i + 1) hij
  · decide

/-- Witness for C1: the concrete length-10, 3-division scenario. -/
theorem sliceDivGen_spec_witness :
    (newSliceDivGen 10 3).map (fun g =>
      (g.offsetAndLength 0, g.offsetAndLength 1, g.offsetAndLength 2)) =
      some ((0, 4), (4, 3), (7, 3)) :=
  (sliceDivGen_spec 10 3 (by decide)).2

theorem minLoop_first {α : Type} [LinearOrder α] (d : α) :
    ∀ (xs : List α) (cur : α),
      ∃ i, i < (cur :: xs).length ∧
        minLoop (fun a b => decide (a < b)) cur xs = (cur :: xs).getD i d ∧
        (∀ j, j < i → (cur :: xs).getD i d < (cur :: xs).getD j d) ∧
        (∀ j, j < (cur :: xs).length →
          (cur :: xs).getD i d ≤ (cur :: xs).getD j d) := by
  intro xs
  induction xs with
  | nil =>
    intro cur
    refine ⟨0, by simp, by simp [minLoop], by omega, ?_⟩
    intro j hj
    have hj0 : j = 0 := by simpa using hj
    simp [hj0]
  | cons v vs ih =>
    intro cur
    rw [minLoop]
    by_cases hv : v < cur
    · rw [if_pos (by simpa using hv)]
      obtain ⟨i, hi, heq, hstrict, hle⟩ := ih v
      refine ⟨i + 1, by simpa using hi, by simpa using heq, ?_, ?_⟩
      · intro j hj
        cases j with
        | zero =>
          simp only [List.getD_cons_succ, List.getD_cons_zero]
          have h0 := hle 0 (by simp)
          simp only [List.getD_cons_zero] at h0
          exact lt_of_le_of_lt h0 hv
        | succ k =>
          simp only [List.getD_cons_succ]
          exact hstrict k (by omega)
      · intro j hj
        cases j with
        | zero =>
          simp only [List.getD_cons_succ, List.getD_cons_zero]
          have h0 := hle 0 (by simp)
          simp only [List.getD_cons_zero] at h0
          exact le_of_lt (lt_of_le_of_lt h0 hv)
        | succ k =>
          simp only [List.getD_cons_succ]
          exact hle k (by simpa using hj)
    · rw [if_neg (by simpa using hv)]
      have hcv : cur ≤ v := not_lt.mp hv
      obtain ⟨i, hi, heq, hstrict, hle⟩ := ih cur
      cases i with
      | zero =>
        simp only [List.getD_cons_zero] at heq
        refine ⟨0, by simp, by simpa using heq, by omega, ?_⟩
        intro j hj
        cases j with
        | zero => simp
        | succ k =>
          cases k with
          | zero =>
            simp only [List.getD_cons_succ, List.getD_cons_zero]
            exact hcv
          | succ m =>
            simp only [List.getD_cons_succ, List.getD_cons_zero]
            have hm := hle (m + 1) (by simp at hj ⊢; omega)
            simp only [List.getD_cons_succ, List.getD_cons_zero] at hm
            exact hm
      | succ k =>
        refine ⟨k + 2, by simp at hi ⊢; omega, ?_, ?_, ?_⟩
        · simp only [List.getD_cons_succ] at heq ⊢
          exact heq
        · intro j hj
          have hr0 := hstrict 0 (by omega)
          simp only [List.getD_cons_succ, List.getD_cons_zero] at hr0
          cases j with
          | zero =>
            simp only [List.getD_cons_succ, List.getD_cons_zero]
            exact hr0
          | succ m =>
            cases m with
            | zero =>
              simp only [List.getD_cons_succ, List.getD_cons_zero]
              exact lt_of_lt_of_le hr0 hcv
            | succ p =>
              simp only [List.getD_cons_succ]
              have hp := hstrict (p + 1) (by omega)
              simp only [List.getD_cons_succ] at hp
              exact hp
        · intro j hj
          cases j with
          | zero =>
            have h0 := hle 0 (by simp)
            simp only [List.getD_cons_succ, List.getD_cons_zero] at h0 ⊢
            exact h0
          | succ m =>
            cases m with
            | zero =>
              have hr0 := hstrict 0 (by omega)
              simp only [List.getD_cons_succ, List.getD_cons_zero] at hr0 ⊢
              exact le_of_lt (lt_of_lt_of_le hr0 hcv)
            | succ p =>
              have hp := hle (p + 1) (by simp at hj ⊢; omega)
              simp only [List.getD_cons_succ] at hp ⊢
              exact hp

theorem maxLoop_first {α : Type} [LinearOrder α] (d : α) :
    ∀ (xs : List α) (cur : α),
      ∃ i, i < (cur :: xs).length ∧
        maxLoop (fun a b => decide (a < b)) cur xs = (cur :: xs).getD i d ∧
        (∀ j, j < i → (cur :: xs).getD j d < (cur :: xs).getD i d) ∧
        (∀ j, j < (cur :: xs).length →
          (cur :: xs).getD j d ≤ (cur :: xs).getD i d) := by
  intro xs
  induction xs with
  | nil =>
    intro cur
    refine ⟨0, by simp, by simp [maxLoop], by omega, ?_⟩
    intro j hj
    have hj0 : j = 0 := by simpa using hj
    simp [hj0]
  | cons v vs ih =>
    intro cur
    rw [maxLoop]
    by_cases hv : cur < v
    · rw [if_pos (by simpa using hv)]
      obtain ⟨i, hi, heq, hstrict, hle⟩ := ih v
      refine ⟨i + 1, by simpa using hi, by simpa using heq, ?_, ?_⟩
      · intro j hj
        cases j with
        | zero =>
          simp only [List.getD_cons_succ, List.getD_cons_zero]
          have h0 := hle 0 (by simp)
          simp only [List.getD_cons_zero] at h0
          exact lt_of_lt_of_le hv h0
        | succ k =>
          simp only [List.getD_cons_succ]
          exact hstrict k (by omega)
      · intro j hj
        cases j with
        | zero =>
          simp only [List.getD_cons_succ, List.getD_cons_zero]
          have h0 := hle 0 (by simp)
          simp only [List.getD_cons_zero] at h0
          exact le_of_lt (lt_of_lt_of_le hv h0)
        | succ k =>
          simp only [List.getD_cons_succ]
          exact hle k (by simpa using hj)
    · rw [if_neg (by simpa using hv)]
      have hvc : v ≤ cur := not_lt.mp hv
      obtain ⟨i, hi, heq, hstrict, hle⟩ := ih cur
      cases i with
      | zero =>
        simp only [List.getD_cons_zero] at heq
        refine ⟨0, by simp, by simpa using heq, by omega, ?_⟩
        intro j hj
        cases j with
        | zero => simp
        | succ k =>
          cases k with
          | zero =>
            simp only [List.getD_cons_succ, List.getD_cons_zero]
            exact hvc
          | succ m =>
            simp only [List.getD_cons_succ, List.getD_cons_zero]
            have hm := hle (m + 1) (by simp at hj ⊢; omega)
            simp only [List.getD_cons_succ, List.getD_cons_zero] at hm
            exact hm
      | succ k =>
        refine ⟨k + 2, by simp at hi ⊢; omega, ?_, ?_, ?_⟩
        · simp only [List.getD_cons_succ] at heq ⊢
          exact heq
        · intro j hj
          have hr0 := hstrict 0 (by omega)
          simp only [List.getD_cons_succ, List.getD_cons_zero] at hr0
          cases j with
          | zero =>
            simp only [List.getD_cons_succ, List.getD_cons_zero]
            exact hr0
          | succ m =>
            cases m with
            | zero =>
              simp only [List.getD_cons_succ, List.getD_cons_zero]
              exact lt_of_le_of_lt hvc hr0
            | succ p =>
              simp only [List.getD_cons_succ]
              have hp := hstrict (p + 1) (by omega)
              simp only [List.getD_cons_succ] at hp
              exact hp
        · intro j hj
          cases j with
          | zero =>
            have h0 := hle 0 (by simp)
            simp only [List.getD_cons_succ, List.getD_cons_zero] at h0 ⊢
            exact h0
          | succ m =>
            cases m with
            | zero =>
              have hr0 := hstrict 0 (by omega)
              simp only [List.getD_cons_succ, List.getD_cons_zero] at hr0 ⊢
              exact le_of_lt (lt_of_le_of_lt hvc hr0)
            | succ p =>
              have hp := hle (p + 1) (by simp at hj ⊢; omega)
              simp only [List.getD_cons_succ] at hp ⊢
              exact hp

/-- C7: on a nil or empty slice, MinBy and MaxBy return the element
type's zero value with false; on a non-empty slice compared with a
less-than comparison, they return true together with the value at the
first index attaining the minimum (resp. maximum): every earlier index
holds a strictly greater (resp. strictly smaller) value, and the value
is a lower (resp. upper) bound for the whole slice. -/
theorem minBy_maxBy_spec {α : Type} [LinearOrder α] [Inhabited α]
    (s : GoSlice α) :
    (elems s = [] →
      MinBy s (fun a b => decide (a < b)) = (zeroValue α, false) ∧
      MaxBy s (fun a b => decide (a < b)) = (zeroValue α, false)) ∧
    (elems s ≠ [] →
      (MinBy s (fun a b => decide (a < b))).2 = true ∧
      (MaxBy s (fun a b => decide (a < b))).2 = true ∧
      (∃ i, i < (elems s).length ∧
        (MinBy s (fun a b => decide (a < b))).1 = (elems s).getD i default ∧
        (∀ j, j < i →
          (elems s).getD i default < (elems s).getD j default) ∧
        (∀ j, j < (elems s).length →
          (elems s).getD i default ≤ (elems s).getD j default)) ∧
      (∃ i, i < (elems s).length ∧
        (MaxBy s (fun a b => decide (a < b))).1 = (elems s).getD i default ∧
        (∀ j, j < i →
          (elems s).getD j default < (elems s).getD i default) ∧
        (∀ j, j < (elems s).length →
          (elems s).getD j default ≤ (elems s).getD i default))) := by
  constructor
  · intro h
    constructor
    · show (match elems s with
        | [] => (zeroValue α, false)
        | x :: xs => (minLoop (fun a b => decide (a < b)) x xs, true)) =
        (zeroValue α, false)
      rw [h]
    · show (match elems s with
        | [] => (zeroValue α, false)
        | x :: xs => (maxLoop (fun a b => decide (a < b)) x xs, true)) =
        (zeroValue α, false)
      rw [h]
  · intro h
    match he : elems s with
    | [] => exact absurd he h
    | x :: xs =>
      have hmin : MinBy s (fun a b => decide (a < b)) =
          (minLoop (fun a b => decide (a < b)) x xs, true) := by
        unfold MinBy
        rw [he]
      have hmax : MaxBy s (fun a b => decide (a < b)) =
          (maxLoop (fun a b => decide (a < b)) x xs, true) := by
        unfold MaxBy
        rw [he]
      refine ⟨by rw [hmin], by rw [hmax], ?_, ?_⟩
      · obtain ⟨i, hi, heq, hstrict, hle⟩ := minLoop_first default xs x
        exact ⟨i, hi, by rw [hmin]; exact heq, hstrict, hle⟩
      · obtain ⟨i, hi, heq, hstrict, hle⟩ := maxLoop_first default xs x
        exact ⟨i, hi, by rw [hmax]; exact heq, hstrict, hle⟩

/-- Witness for C7: a concrete slice with a duplicated minimum. -/
theorem minBy_maxBy_spec_witness :
    ∃ i, i < (elems (some [2, 1, 1])).length ∧
      (MinBy (some [2, 1, 1]) (fun a b : Nat => decide (a < b))).1 =
        (elems (some [2, 1, 1])).getD i default ∧
      (∀ j, j < i → (elems (some [2, 1, 1])).getD i default <
        (elems (some [2, 1, 1])).getD j default) ∧
      (∀ j, j < (elems (some [2, 1, 1])).length →
        (elems (some [2, 1, 1])).getD i default ≤
          (elems (some [2, 1, 1])).getD j default) :=
  ((minBy_maxBy_spec (some [2, 1, 1])).2 (by decide)).2.2.1

theorem copySeg_empty_seg (buf : List β) (n : Nat) :
    copySeg buf n [] = buf := by
  cases buf <;> simp [copySeg]

theorem copySeg_append (A : List β) :
    ∀ (buf seg : List β),
      copySeg (A ++ buf) A.length seg = A ++ copySeg buf 0 seg := by
  induction A with
  | nil => intro buf seg; simp
  | cons a A ih =>
    intro buf seg
    cases seg with
    | nil => rw [copySeg_empty_seg, copySeg_empty_seg]
    | cons sx seg =>
      show copySeg (a :: (A ++ buf)) (A.length + 1) (sx :: seg) =
        a :: (A ++ copySeg buf 0 (sx :: seg))
      rw [copySeg, ih]
      simp

theorem copySeg_append_at (A buf seg : List β) (n : Nat)
    (h : n = A.length) :
    copySeg (A ++ buf) n seg = A ++ copySeg buf 0 seg := by
  rw [h, copySeg_append]

theorem copySeg_zero (seg : List β) :
    ∀ buf : List β, seg.length ≤ buf.length →
      copySeg buf 0 seg = seg ++ buf.drop seg.length := by
  induction seg with
  | nil => intro buf _; simp [copySeg_empty_seg]
  | cons sx seg ih =>
    intro buf hlen
    cases buf with
    | nil => simp at hlen
    | cons b buf =>
      show copySeg (b :: buf) 0 (sx :: seg) =
        sx :: (seg ++ buf.drop seg.length)
      rw [copySeg, ih buf (by simpa using hlen)]

theorem offsetAndLength_end (N D : Nat) (hD : 1 ≤ D) :
    ((⟨N / D, N % D⟩ : SliceDivGen).offsetAndLength D).1 = N := by
  have hmod : N % D < D := Nat.mod_lt _ (by omega)
  simp only [SliceDivGen.offsetAndLength]
  rw [if_neg (by omega)]
  exact Nat.div_add_mod N D

theorem parMap_fold (gen : SliceDivGen) (l : List α) (f : α → β) (D : Nat)
    (z : β) (hend : (gen.offsetAndLength D).1 = l.length) :
    ∀ k, k ≤ D →
      (List.range k).foldl (fun buf divIdx =>
        copySeg buf (gen.offsetAndLength divIdx).1
          (((l.drop (gen.offsetAndLength divIdx).1).take
            (gen.offsetAndLength divIdx).2).map f))
        (List.replicate l.length z) =
      (l.take (gen.offsetAndLength k).1).map f ++
        List.replicate (l.length - (gen.offsetAndLength k).1) z := by
  have hoffs : ∀ j, j ≤ D → (gen.offsetAndLength j).1 ≤ l.length := by
    intro j hj
    have hmono := offsetAndLength_mono gen D j hj
    rw [hend] at hmono
    exact hmono
  intro k
  induction k with
  | zero =>
    intro _
    rw [List.range_zero, List.foldl_nil, offsetAndLength_zero gen]
    simp
  | succ k ih =>
    intro hk
    have hcum := offsetAndLength_cumul gen k
    have hk1 : (gen.offsetAndLength (k + 1)).1 ≤ l.length :=
      hoffs (k + 1) hk
    have hkle : (gen.offsetAndLength k).1 ≤ l.length := hoffs k (by omega)
    rw [List.range_succ, List.foldl_append, List.foldl_cons,
      List.foldl_nil, ih (by omega)]
    have hlenA : (gen.offsetAndLength k).1 =
        ((l.take (gen.offsetAndLength k).1).map f).length := by
      rw [List.length_map, List.length_take]
      omega
    rw [copySeg_append_at _ _ _ _ hlenA]
    have hlenSeg : (((l.drop (gen.offsetAndLength k).1).take
        (gen.offsetAndLength k).2).map f).length =
        (gen.offsetAndLength k).2 := by
      rw [List.length_map, List.length_take, List.length_drop]
      omega
    rw [copySeg_zero _ _ (by
      rw [hlenSeg, List.length_replicate]
      omega)]
    rw [hlenSeg, List.drop_replicate]
    rw [hcum, List.take_add, List.map_append, List.append_assoc,
      Nat.sub_sub]

/-- C2: for every slice (nil included), every mapping function and every
division count of at least 1, ParMap completes without panicking and
returns exactly the sequential Map of the same inputs: same length, same
positional order; in particular ParMap of a nil slice is nil. -/
theorem parMap_eq_map {α β : Type} [Inhabited β] (divs : Nat)
    (hD : 1 ≤ divs) (s : GoSlice α) (f : α → β) :
    ParMap divs s f = some (Map s f) := by
  cases s with
  | none => rfl
  | some l =>
    have hD0 : divs ≠ 0 := by omega
    have hend := offsetAndLength_end l.length divs hD
    have h := parMap_fold ⟨l.length / divs, l.length % divs⟩ l f divs
      (zeroValue β) hend divs (le_refl _)
    rw [hend] at h
    simp only [List.take_length, Nat.sub_self, List.replicate_zero,
      List.append_nil] at h
    have hgen : newSliceDivGen l.length divs =
        some ⟨l.length / divs, l.length % divs⟩ := by
      rw [newSliceDivGen, if_neg hD0]
    simp only [ParMap]
    rw [hgen]
    simp only [Option.map_some', Option.some.injEq, Map, elems,
      Option.getD_some]
    exact h

/-- Witness for C2 at a concrete slice and division count. -/
theorem parMap_eq_map_witness :
    ParMap 4 (some [1, 2, 3, 4, 5, 6, 7, 8]) (fun x : Nat => 2 * x) =
      some (Map (some [1, 2, 3, 4, 5, 6, 7, 8]) (fun x : Nat => 2 * x)) :=
  parMap_eq_map 4 (by decide) _ _

theorem swapL_length (l : List α) (i j : Nat) :
    (swapL l i j).length = l.length := by
  unfold swapL
  split <;> simp [List.length_set]

theorem setGet_self : ∀ (l : List α) (i : Nat) (x : α),
    l.get? i = some x → l.set i x = l := by
  intro l
  induction l with
  | nil => intro i x h; simp at h
  | cons a t ih =>
    intro i x h
    cases i with
    | zero =>
      have hax : a = x := by simpa using h
      simp [hax]
    | succ k =>
      have h2 : t.get? k = some x := by simpa using h
      simp [ih k x h2]

theorem cons_set_perm : ∀ (t : List α) (jj : Nat) (a y : α),
    t.get? jj = some y → (y :: t.set jj a).Perm (a :: t) := by
  intro t
  induction t with
  | nil => intro jj a y h; simp at h
  | cons b u ih =>
    intro jj a y h
    cases jj with
    | zero =>
      have hb : b = y := by simpa using h
      subst hb
      show (b :: (a :: u)).Perm (a :: b :: u)
      exact List.Perm.swap a b u
    | succ k =>
      have h2 : u.get? k = some y := by simpa using h
      show (y :: b :: u.set k a).Perm (a :: b :: u)
      exact (List.Perm.swap b y _).trans
        (((ih k a y h2).cons b).trans (List.Perm.swap a b u))

theorem set_set_perm : ∀ (l : List α) (i j : Nat), i < j → ∀ (x y : α),
    l.get? i = some x → l.get? j = some y →
    ((l.set i y).set j x).Perm l := by
  intro l
  induction l with
  | nil => intro i j hij x y hi hj; simp at hi
  | cons a t ih =>
    intro i j hij x y hi hj
    cases i with
    | zero =>
      cases j with
      | zero => omega
      | succ jj =>
        have hax : a = x := by simpa using hi
        have hjy : t.get? jj = some y := by simpa using hj
        show (y :: t.set jj x).Perm (a :: t)
        subst hax
        exact cons_set_perm t jj a y hjy
    | succ ii =>
      cases j with
      | zero => omega
      | succ jj =>
        have hi2 : t.get? ii = some x := by simpa using hi
        have hj2 : t.get? jj = some y := by simpa using hj
        show (a :: (t.set ii y).set jj x).Perm (a :: t)
        exact (ih ii jj (by omega) x y hi2 hj2).cons a

theorem swapL_perm (l : List α) (i j : Nat) : (swapL l i j).Perm l := by
  unfold swapL
  split
  · rename_i x y hx hy
    rcases Nat.lt_trichotomy i j with h | h | h
    · exact set_set_perm l i j h x y hx hy
    · subst h
      have hxy : x = y := by rw [hx] at hy; exact Option.some.inj hy
      subst hxy
      rw [List.set_set, setGet_self l i x hx]
    · rw [List.set_comm _ _ _ (by omega : i ≠ j)]
      exact set_set_perm l j i h y x hy hx
  · exact List.Perm.refl l

theorem swapL_getD_fst (l : List α) (i j : Nat) (d : α) (hi : i < l.length)
    (hj : j < l.length) (hij : i ≠ j) :
    (swapL l i j).getD i d = l.getD j d := by
  unfold swapL
  split
  · rename_i x y hx hy
    rw [List.getD_eq_getElem?_getD, List.getElem?_set,
      if_neg (Ne.symm hij), List.getElem?_set, if_pos rfl, if_pos hi]
    rw [List.getD_eq_getElem?_getD, ← List.get?_eq_getElem?, hy]
  · rename_i hcatch
    exfalso
    have hgi : l.get? i = some (l.get ⟨i, hi⟩) := List.get?_eq_some.mpr ⟨hi, rfl⟩
    have hgj : l.get? j = some (l.get ⟨j, hj⟩) := List.get?_eq_some.mpr ⟨hj, rfl⟩
    exact hcatch _ _ hgi hgj

theorem swapL_getD_snd (l : List α) (i j : Nat) (d : α) (hi : i < l.length)
    (hj : j < l.length) :
    (swapL l i j).getD j d = l.getD i d := by
  unfold swapL
  split
  · rename_i x y hx hy
    rw [List.getD_eq_getElem?_getD, List.getElem?_set, if_pos rfl,
      if_pos (by rw [List.length_set]; exact hj)]
    rw [List.getD_eq_getElem?_getD, ← List.get?_eq_getElem?, hx]
  · rename_i hcatch
    exfalso
    have hgi : l.get? i = some (l.get ⟨i, hi⟩) := List.get?_eq_some.mpr ⟨hi, rfl⟩
    have hgj : l.get? j = some (l.get ⟨j, hj⟩) := List.get?_eq_some.mpr ⟨hj, rfl⟩
    exact hcatch _ _ hgi hgj

theorem swapL_getD_other (l : List α) (i j k : Nat) (d : α)
    (hki : k ≠ i) (hkj : k ≠ j) :
    (swapL l i j).getD k d = l.getD k d := by
  unfold swapL
  split
  · rename_i x y hx hy
    rw [List.getD_eq_getElem?_getD, List.getElem?_set,
      if_neg (Ne.symm hkj), List.getElem?_set, if_neg (Ne.symm hki),
      ← List.getD_eq_getElem?_getD]
  · rfl

theorem advance_le (p : α → Bool) (d : α) (l : List α) (bck : Int) :
    ∀ fwd : Int, fwd ≤ bck → (advance p d l bck fwd).1 ≤ bck := by
  intro fwd
  induction fwd using advance.induct p d l bck with
  | case1 x fwdv hcond ih1 ih2 =>
    intro _
    rw [advance, dif_pos hcond]
    exact ih1 (by have := hcond.1; omega)
  | case2 x fwdv hcond =>
    intro h
    rw [advance, dif_neg hcond]
    exact h

theorem advance_true (p : α → Bool) (d : α) (l : List α) (bck : Int) :
    ∀ fwd : Int, ∀ j : Int, fwd ≤ j → j < (advance p d l bck fwd).1 →
      p (l.getD j.toNat d) = true := by
  intro fwd
  induction fwd using advance.induct p d l bck with
  | case1 x fwdv hcond ih1 ih2 =>
    intro j hj1 hj2
    rw [advance, dif_pos hcond] at hj2
    by_cases hxj : j = x
    · subst hxj
      exact hcond.2
    · exact ih1 j (by omega) hj2
  | case2 x fwdv hcond =>
    intro j hj1 hj2
    rw [advance, dif_neg hcond] at hj2
    have hj3 : j < x := hj2
    omega

theorem advance_stop (p : α → Bool) (d : α) (l : List α) (bck : Int) :
    ∀ fwd : Int, (advance p d l bck fwd).1 < bck →
      p (l.getD (advance p d l bck fwd).1.toNat d) = false := by
  intro fwd
  induction fwd using advance.induct p d l bck with
  | case1 x fwdv hcond ih1 ih2 =>
    intro h
    rw [advance, dif_pos hcond] at h ⊢
    exact ih1 h
  | case2 x fwdv hcond =>
    intro h
    rw [advance, dif_neg hcond] at h ⊢
    have hx : x < bck := h
    show p (l.getD x.toNat d) = false
    have hnp : ¬ (p (l.getD x.toNat d) = true) := fun hp => hcond ⟨hx, hp⟩
    exact Bool.eq_false_iff.mpr hnp

theorem retreat_ge (p : α → Bool) (d : α) (l : List α) (fwd : Int) :
    ∀ bck : Int, fwd ≤ bck → fwd ≤ (retreat p d l fwd bck).1 := by
  intro bck
  induction bck using retreat.induct p d l fwd with
  | case1 x fwdv hcond ih1 ih2 =>
    intro _
    rw [retreat, dif_pos hcond]
    exact ih1 (by have := hcond.1; omega)
  | case2 x fwdv hcond =>
    intro h
    rw [retreat, dif_neg hcond]
    exact h

theorem retreat_false (p : α → Bool) (d : α) (l : List α) (fwd : Int) :
    ∀ bck : Int, ∀ j : Int, (retreat p d l fwd bck).1 < j → j ≤ bck →
      p (l.getD j.toNat d) = false := by
  intro bck
  induction bck using retreat.induct p d l fwd with
  | case1 x fwdv hcond ih1 ih2 =>
    intro j hj1 hj2
    rw [retreat, dif_pos hcond] at hj1
    by_cases hxj : j = x
    · subst hxj
      exact Bool.eq_false_iff.mpr hcond.2
    · exact ih1 j hj1 (by omega)
  | case2 x fwdv hcond =>
    intro j hj1 hj2
    rw [retreat, dif_neg hcond] at hj1
    have hj3 : x < j := hj1
    omega

theorem retreat_stop (p : α → Bool) (d : α) (l : List α) (fwd : Int) :
    ∀ bck : Int, fwd < (retreat p d l fwd bck).1 →
      p (l.getD (retreat p d l fwd bck).1.toNat d) = true := by
  intro bck
  induction bck using retreat.induct p d l fwd with
  | case1 x fwdv hcond ih1 ih2 =>
    intro h
    rw [retreat, dif_pos hcond] at h ⊢
    exact ih1 h
  | case2 x fwdv hcond =>
    intro h
    rw [retreat, dif_neg hcond] at h ⊢
    have hx : fwd < x := h
    show p (l.getD x.toNat d) = true
    by_contra hnp
    exact hcond ⟨hx, fun hp => hnp hp⟩

theorem hoareLoop_eq (p : α → Bool) (d : α) (l : List α) (fwd bck : Int) :
    hoareLoop p d l fwd bck =
      if (advance p d l bck (fwd + 1)).1 ≥
          (retreat p d l (advance p d l bck (fwd + 1)).1 (bck - 1)).1 then
        (l, (advance p d l bck (fwd + 1)).1)
      else
        hoareLoop p d
          (swapL l (advance p d l bck (fwd + 1)).1.toNat
            (retreat p d l (advance p d l bck (fwd + 1)).1 (bck - 1)).1.toNat)
          (advance p d l bck (fwd + 1)).1
          (retreat p d l (advance p d l bck (fwd + 1)).1 (bck - 1)).1 := by
  rw [hoareLoop]

theorem hoareLoop_spec (p : α → Bool) (d : α) :
    ∀ (n : Nat) (l : List α) (fwd bck : Int),
      (bck - fwd).toNat ≤ n →
      -1 ≤ fwd → bck ≤ l.length → fwd < bck →
      (∀ j : Nat, (j : Int) ≤ fwd → p (l.getD j d) = true) →
      (∀ j : Nat, bck ≤ (j : Int) → j < l.length → p (l.getD j d) = false) →
      ((hoareLoop p d l fwd bck).1.Perm l ∧
       0 ≤ (hoareLoop p d l fwd bck).2 ∧
       (hoareLoop p d l fwd bck).2 ≤ l.length ∧
       (∀ j : Nat, (j : Int) < (hoareLoop p d l fwd bck).2 →
         p ((hoareLoop p d l fwd bck).1.getD j d) = true) ∧
       (∀ j : Nat, (hoareLoop p d l fwd bck).2 ≤ (j : Int) →
         j < l.length → p ((hoareLoop p d l fwd bck).1.getD j d) = false)) := by
  intro n
  induction n with
  | zero =>
    intro l fwd bck hm _ _ hfb _ _
    omega
  | succ n ih =>
    intro l fwd bck hm hfwd hbck hfb hpre hpost
    rw [hoareLoop_eq]
    set F := (advance p d l bck (fwd + 1)).1 with hF
    set B := (retreat p d l F (bck - 1)).1 with hB
    have hf1ge : fwd + 1 ≤ F := by rw [hF]; exact (advance p d l bck (fwd + 1)).2
    have hf1le : F ≤ bck := by
      rw [hF]
      exact advance_le p d l bck (fwd + 1) (by omega)
    have hb1le : B ≤ bck - 1 := by rw [hB]; exact (retreat p d l F (bck - 1)).2
    have htrue : ∀ j : Nat, (j : Int) < F → p (l.getD j d) = true := by
      intro j hj
      by_cases hjf : (j : Int) ≤ fwd
      · exact hpre j hjf
      · rw [hF] at hj
        have h2 := advance_true p d l bck (fwd + 1) (j : Int) (by omega) hj
        simpa using h2
    have hfalse : ∀ j : Nat, B < (j : Int) → j < l.length →
        p (l.getD j d) = false := by
      intro j hj hjl
      by_cases hjb : bck ≤ (j : Int)
      · exact hpost j hjb hjl
      · rw [hB] at hj
        have h2 := retreat_false p d l F (bck - 1) (j : Int) hj (by omega)
        simpa using h2
    by_cases hFB : F ≥ B
    · rw [if_pos hFB]
      refine ⟨List.Perm.refl l, by omega, by omega, ?_, ?_⟩
      · intro j hj
        exact htrue j hj
      · intro j hj hjl
        by_cases hjB : B < (j : Int)
        · exact hfalse j hjB hjl
        · have hjF : (j : Int) = F := by omega
          have hFbck : F < bck := by omega
          rw [hF] at hFbck
          have h2 := advance_stop p d l bck (fwd + 1) hFbck
          rw [← hF] at h2
          have hFt : F.toNat = j := by omega
          rw [hFt] at h2
          exact h2
    · rw [if_neg hFB]
      have hFB2 : F < B := by omega
      have hF0 : 0 ≤ F := by omega
      have hBlen : B < (l.length : Int) := by omega
      have px : p (l.getD F.toNat d) = false := by
        have h2 := advance_stop p d l bck (fwd + 1) (by rw [← hF]; omega)
        rw [← hF] at h2
        exact h2
      have py : p (l.getD B.toNat d) = true := by
        have h2 := retreat_stop p d l F (bck - 1) (by rw [← hB]; omega)
        rw [← hB] at h2
        exact h2
      have hlen2 : (swapL l F.toNat B.toNat).length = l.length :=
        swapL_length l F.toNat B.toNat
      have hFn : F.toNat < l.length := by omega
      have hBn : B.toNat < l.length := by omega
      have hFBn : F.toNat ≠ B.toNat := by omega
      have hpre2 : ∀ j : Nat, (j : Int) ≤ F →
          p ((swapL l F.toNat B.toNat).getD j d) = true := by
        intro j hj
        by_cases hjF : (j : Int) = F
        · have hj2 : j = F.toNat := by omega
          rw [hj2, swapL_getD_fst l F.toNat B.toNat d hFn hBn hFBn]
          exact py
        · rw [swapL_getD_other l F.toNat B.toNat j d (by omega) (by omega)]
          exact htrue j (by omega)
      have hpost2 : ∀ j : Nat, B ≤ (j : Int) →
          j < (swapL l F.toNat B.toNat).length →
          p ((swapL l F.toNat B.toNat).getD j d) = false := by
        intro j hj hjl
        rw [hlen2] at hjl
        by_cases hjB : (j : Int) = B
        · have hj2 : j = B.toNat := by omega
          rw [hj2, swapL_getD_snd l F.toNat B.toNat d hFn hBn]
          exact px
        · rw [swapL_getD_other l F.toNat B.toNat j d (by omega) (by omega)]
          exact hfalse j (by omega) hjl
      obtain ⟨hperm, h0, hle, hpre3, hpost3⟩ :=
        ih (swapL l F.toNat B.toNat) F B (by omega) (by omega)
          (by rw [hlen2]; omega) hFB2 hpre2 hpost2
      refine ⟨hperm.trans (swapL_perm l F.toNat B.toNat), h0, ?_, hpre3, ?_⟩
      · rw [hlen2] at hle
        exact hle
      · intro j hj hjl
        exact hpost3 j hj (by rw [hlen2]; exact hjl)

/-- C4: PartitionInPlace (a total function of the embedding, hence
terminating) returns an updated slice and a boundary index between 0 and
the length such that every element before the boundary satisfies the
predicate, every element from the boundary on fails it, the updated
slice is a permutation of the original, and the two sides of the
boundary are, as multisets, exactly the two branches of the stable
Partition over the same predicate. -/
theorem partitionInPlace_spec {α : Type} (firstPart : α → Bool) (d : α)
    (l : List α) :
    (PartitionInPlace d l firstPart).1.Perm l ∧
    0 ≤ (PartitionInPlace d l firstPart).2 ∧
    (PartitionInPlace d l firstPart).2 ≤ l.length ∧
    (∀ j : Nat, (j : Int) < (PartitionInPlace d l firstPart).2 →
      firstPart ((PartitionInPlace d l firstPart).1.getD j d) = true) ∧
    (∀ j : Nat, (PartitionInPlace d l firstPart).2 ≤ (j : Int) →
      j < l.length →
      firstPart ((PartitionInPlace d l firstPart).1.getD j d) = false) ∧
    ((PartitionInPlace d l firstPart).1.take
        (PartitionInPlace d l firstPart).2.toNat).Perm
      (elems (Partition (some l) firstPart).1) ∧
    ((PartitionInPlace d l firstPart).1.drop
        (PartitionInPlace d l firstPart).2.toNat).Perm
      (elems (Partition (some l) firstPart).2) := by
  unfold PartitionInPlace
  obtain ⟨hperm, h0, hle, htr, hfa⟩ :=
    hoareLoop_spec firstPart d (l.length + 1) l (-1) (l.length : Int)
      (by omega) (by omega) (by omega) (by omega)
      (by intro j hj; exact absurd hj (by omega))
      (by intro j hj1 hj2; exact absurd hj2 (by omega))
  set R := hoareLoop firstPart d l (-1) (l.length : Int) with hR
  have hlenR : R.1.length = l.length := hperm.length_eq
  have hT : ∀ a ∈ R.1.take R.2.toNat, firstPart a = true := by
    intro a ha
    obtain ⟨i, hi, hia⟩ := List.mem_iff_getElem.mp ha
    have hi2 : i < R.2.toNat := by
      rw [List.length_take] at hi
      omega
    rw [List.getElem_take] at hia
    rw [← hia]
    have h3 := htr i (by omega)
    rw [List.getD_eq_getElem R.1 d (by omega)] at h3
    exact h3
  have hD : ∀ a ∈ R.1.drop R.2.toNat, firstPart a = false := by
    intro a ha
    obtain ⟨i, hi, hia⟩ := List.mem_iff_getElem.mp ha
    rw [List.length_drop] at hi
    rw [List.getElem_drop] at hia
    rw [← hia]
    have h3 := hfa (R.2.toNat + i) (by omega) (by omega)
    rw [List.getD_eq_getElem R.1 d (by omega)] at h3
    exact h3
  have htakeF : (R.1.take R.2.toNat).filter firstPart =
      R.1.take R.2.toNat := List.filter_eq_self.mpr hT
  have hdropF : (R.1.drop R.2.toNat).filter firstPart = [] := by
    rw [List.filter_eq_nil_iff]
    intro a ha
    simp [hD a ha]
  have hTn : (R.1.take R.2.toNat).filter (fun v => ! firstPart v) = [] := by
    rw [List.filter_eq_nil_iff]
    intro a ha
    simp [hT a ha]
  have hDn : (R.1.drop R.2.toNat).filter (fun v => ! firstPart v) =
      R.1.drop R.2.toNat :=
    List.filter_eq_self.mpr (fun a ha => by simp [hD a ha])
  have hsplit : R.1.filter firstPart = R.1.take R.2.toNat := by
    conv_lhs => rw [← List.take_append_drop R.2.toNat R.1]
    rw [List.filter_append, htakeF, hdropF, List.append_nil]
  have hsplit2 : R.1.filter (fun v => ! firstPart v) =
      R.1.drop R.2.toNat := by
    conv_lhs => rw [← List.take_append_drop R.2.toNat R.1]
    rw [List.filter_append, hTn, hDn, List.nil_append]
  refine ⟨hperm, h0, hle, htr, hfa, ?_, ?_⟩
  · have he : elems (Partition (some l) firstPart).1 =
        l.filter firstPart := rfl
    rw [he, ← hsplit]
    exact hperm.filter firstPart
  · have he : elems (Partition (some l) firstPart).2 =
        l.filter (fun v => ! firstPart v) := rfl
    rw [he, ← hsplit2]
    exact hperm.filter _

end SliceUtils